import Mathlib

/-!
Verification of the filemanager library: a shallow embedding of
`extract_file_components` and `search_files` together with the POSIX path
primitives they rely on (os.path.split, os.path.splitext, os.path.join,
os.walk), and theorems settling the specification claims.

Machine model conventions:
  - Python strings are Lean `String`; the path separator is the slash.
  - The filesystem is a map from directory paths to directory trees
    (`String → Option FSTree`); `os.path.isdir d` is `(fs d).isSome` and
    `os.walk d` is the pre-order walk of the tree at `d`.
  - Python values that may be `None`, `str`, `list` or `tuple` are `PyVal`.
  - The regular-expression engine of the `re` module is abstracted as a
    function `rmatch : String → String → Bool` (pattern, subject) standing
    for `re.match`; a concrete derivative-based engine `Regex` below gives
    `re.match` / `re.fullmatch` / `re.search` semantics for concrete
    patterns.
  - Exceptions are `Except SearchError`.
-/

namespace FileManager

/-- Python substring test: `needle in hay`. -/
def substrB (needle hay : String) : Bool :=
  decide (needle.data <:+: hay.data)

/-- Python `s.startswith(pre)`. -/
def startsB (s pre : String) : Bool :=
  pre.data.isPrefixOf s.data

/-- Python `s.endswith(suf)`. -/
def endsB (s suf : String) : Bool :=
  suf.data.isSuffixOf s.data

/-- POSIX `os.path.join(p, f)` restricted to two arguments, as in
`posixpath.join`: if `f` starts with the separator it replaces `p`;
otherwise the two parts are glued, inserting a separator unless `p` is
empty or already ends with one. -/
def joinPath (p f : String) : String :=
  if startsB f "/" then f
  else if p = "" || endsB p "/" then p ++ f
  else p ++ "/" ++ f

/-- POSIX `os.path.split(p)`: the tail is everything after the last
separator, the head is everything before it, with trailing separators
stripped from the head unless the head consists only of separators. -/
def osSplit (p : String) : String × String :=
  let l := p.data
  let tail := (l.reverse.takeWhile (fun c => c ≠ '/')).reverse
  let headRaw := l.take (l.length - tail.length)
  let head :=
    if headRaw.isEmpty || headRaw.all (fun c => c = '/') then headRaw
    else (headRaw.reverse.dropWhile (fun c => c = '/')).reverse
  (String.mk head, String.mk tail)

/-- Extension split of a single path segment (no separator inside), as in
`posixpath.splitext`: the extension begins at the last dot, provided some
character before that dot in the segment is not itself a dot (so a purely
leading-dot name such as `.bashrc` has no extension). -/
def splitextName (name : List Char) : List Char × List Char :=
  let leading := name.takeWhile (fun c => c = '.')
  let rest := name.drop leading.length
  if rest.any (fun c => c = '.') then
    let ext := '.' :: (rest.reverse.takeWhile (fun c => c ≠ '.')).reverse
    (name.take (name.length - ext.length), ext)
  else (name, [])

/-- POSIX `os.path.splitext(p)`: split at the last separator, apply the
segment-level extension split to the tail, and reattach the head. -/
def splitext (p : String) : String × String :=
  let l := p.data
  let tail := (l.reverse.takeWhile (fun c => c ≠ '/')).reverse
  let pre := l.take (l.length - tail.length)
  let se := splitextName tail
  (String.mk (pre ++ se.1), String.mk se.2)

/-- Embedding of `extract_file_components(filepath)` for string input:
`path, filename_with_ext = os.path.split(filepath)` followed by
`filename, extension = os.path.splitext(filename_with_ext)`. -/
def extract_file_components (filepath : String) : String × String × String :=
  let s := osSplit filepath
  let fe := splitext s.2
  (s.1, fe.1, fe.2)

/-- Python runtime values relevant to the argument type checks: `None`,
`str`, `list`, `tuple`, and a non-sequence non-string stand-in (`int`). -/
inductive PyVal where
  | pyNone : PyVal
  | pyStr : String → PyVal
  | pyList : List PyVal → PyVal
  | pyTuple : List PyVal → PyVal
  | pyInt : Int → PyVal

/-- Whether a `PyVal` is a Python `str`. -/
def PyVal.isStr : PyVal → Bool
  | .pyStr _ => true
  | _ => false

/-- The string held by a `PyVal`, when it is one. -/
def PyVal.asStr : PyVal → Option String
  | .pyStr s => some s
  | _ => none

/-- Embedding of the nested helper `check_type_union(obj)`: true for
`None`, any `str`, and any sequence (list or tuple) whose elements are all
`str`; false otherwise. -/
def check_type_union : PyVal → Bool
  | .pyNone => true
  | .pyStr _ => true
  | .pyList l => l.all PyVal.isStr
  | .pyTuple l => l.all PyVal.isStr
  | .pyInt _ => false

/-- Embedding of the nested helper `data_to_list(obj)`: `None` becomes the
empty list, a string becomes a singleton, and a sequence is returned as is.
It is only applied after `check_type_union` has accepted the value, so on
its actual inputs the `filterMap` below is the identity on the elements. -/
def data_to_list : PyVal → List String
  | .pyNone => []
  | .pyStr s => [s]
  | .pyList l => l.filterMap PyVal.asStr
  | .pyTuple l => l.filterMap PyVal.asStr
  | .pyInt _ => []

/-- Exceptions raised by the library: `TypeError` and
`FileNotFoundError(directory)`. -/
inductive SearchError where
  | typeError : SearchError
  | fileNotFound : String → SearchError
deriving DecidableEq

/-- A directory tree: named subdirectories and the names of the files
directly inside. -/
inductive FSTree where
  | mk : List (String × FSTree) → List String → FSTree

/-- Subdirectories of the root of a tree. -/
def FSTree.dirs : FSTree → List (String × FSTree)
  | .mk d _ => d

/-- Files directly inside the root of a tree. -/
def FSTree.files : FSTree → List String
  | .mk _ f => f

/-- Pre-order traversal of a tree rooted at path `path`, returning every
visited directory with its subtree; `os.walk` visits directories in
exactly this order (top-down), naming each one by joining the parent path
with the subdirectory name. -/
def walkDirs : FSTree → String → List (String × FSTree)
  | .mk dirs files, path =>
    (path, .mk dirs files) ::
      dirs.attach.flatMap (fun ⟨⟨name, t⟩, _h⟩ => walkDirs t (joinPath path name))
termination_by t _ => sizeOf t
decreasing_by
  have h2 := List.sizeOf_lt_of_mem _h
  simp at h2 ⊢
  omega

/-- Embedding of `os.walk(path)` on the tree `t`: the visited directories
in pre-order, each with the list of file names directly inside it. -/
def walk (t : FSTree) (path : String) : List (String × List String) :=
  (walkDirs t path).map (fun x => (x.1, x.2.files))

/-- Well-formedness of a tree as a real filesystem produces it: no
directory name begins with a separator (names yielded by `os.walk` are
bare entry names). -/
inductive FSTree.Wf : FSTree → Prop
  | node : ∀ (dirs : List (String × FSTree)) (files : List String),
      (∀ name sub, (name, sub) ∈ dirs → startsB name "/" = false) →
      (∀ name sub, (name, sub) ∈ dirs → FSTree.Wf sub) →
      FSTree.Wf (.mk dirs files)

/-- Embedding of the nested helper `matches_criteria(filepath, patterns,
starts, contains, ends, exts, filter)`: each declared group is vacuously
true when empty and otherwise requires at least one matching element; the
custom callable, when present, is the final conjunct and receives the full
filepath. Here `rmatch` stands for the `re.match` primitive, applied to the
filename component (base-name without directory and extension). -/
def matches_criteria (rmatch : String → String → Bool) (filepath : String)
    (patterns starts contains ends exts : List String)
    (filter : Option (String → Bool)) : Bool :=
  let comps := extract_file_components filepath
  let filename := comps.2.1
  let extension := comps.2.2
  (starts.isEmpty || starts.any (fun s => startsB filename s)) &&
  (contains.isEmpty || contains.any (fun c => substrB c filename)) &&
  (ends.isEmpty || ends.any (fun e => endsB filename e)) &&
  (exts.isEmpty || exts.any (fun e => extension == e)) &&
  (patterns.isEmpty || patterns.any (fun p => rmatch p filename)) &&
  (match filter with
   | none => true
   | some f => f filepath)

/-- Embedding of the nested helper `matches_exclusion_criteria(...)`: true
as soon as one declared group has a matching element (an empty group is
vacuously unsatisfied), or the custom callable, when present, returns true
on the full filepath; the callable is the final disjunct. -/
def matches_exclusion_criteria (rmatch : String → String → Bool) (filepath : String)
    (patterns starts contains ends exts : List String)
    (filter : Option (String → Bool)) : Bool :=
  let comps := extract_file_components filepath
  let filename := comps.2.1
  let extension := comps.2.2
  (!starts.isEmpty && starts.any (fun s => startsB filename s)) ||
  (!contains.isEmpty && contains.any (fun c => substrB c filename)) ||
  (!ends.isEmpty && ends.any (fun e => endsB filename e)) ||
  (!exts.isEmpty && exts.any (fun e => extension == e)) ||
  (!patterns.isEmpty && patterns.any (fun p => rmatch p filename)) ||
  (match filter with
   | none => false
   | some f => f filepath)

/-- Keyword arguments of `search_files`, with the same defaults as in the
source (every value defaults to `None`). -/
structure SearchArgs where
  include_directory : PyVal := .pyNone
  include_pattern : PyVal := .pyNone
  include_start : PyVal := .pyNone
  include_content : PyVal := .pyNone
  include_end : PyVal := .pyNone
  include_extension : PyVal := .pyNone
  include_filter : Option (String → Bool) := none
  exclude_subdirectory : PyVal := .pyNone
  exclude_pattern : PyVal := .pyNone
  exclude_start : PyVal := .pyNone
  exclude_content : PyVal := .pyNone
  exclude_end : PyVal := .pyNone
  exclude_extension : PyVal := .pyNone
  exclude_filter : Option (String → Bool) := none

/-- The parameter-check loop of `search_files`: `check_type_union` applied
to the twelve non-callable arguments, in source order. The two callables
are not checked. -/
def SearchArgs.typeChecksPass (a : SearchArgs) : Bool :=
  check_type_union a.include_directory && check_type_union a.include_pattern &&
  check_type_union a.include_start && check_type_union a.include_content &&
  check_type_union a.include_end && check_type_union a.include_extension &&
  check_type_union a.exclude_subdirectory && check_type_union a.exclude_pattern &&
  check_type_union a.exclude_start && check_type_union a.exclude_content &&
  check_type_union a.exclude_end && check_type_union a.exclude_extension

/-- The effective root directories: the normalized `include_directory`
list, with the current working directory appended exactly when that list
is empty. -/
def SearchArgs.roots (a : SearchArgs) (cwd : String) : List String :=
  let dirs := data_to_list a.include_directory
  if dirs.isEmpty then [cwd] else dirs

/-- The call `matches_criteria(filepath, include_pattern, include_start,
include_content, include_end, include_extension, include_filter)` made by
the search loop, on the normalized arguments. -/
def inclPass (rmatch : String → String → Bool) (a : SearchArgs) (filepath : String) : Bool :=
  matches_criteria rmatch filepath
    (data_to_list a.include_pattern) (data_to_list a.include_start)
    (data_to_list a.include_content) (data_to_list a.include_end)
    (data_to_list a.include_extension) a.include_filter

/-- The call `matches_exclusion_criteria(filepath, exclude_pattern,
exclude_start, exclude_content, exclude_end, exclude_extension,
exclude_filter)` made by the search loop, on the normalized arguments. -/
def exclPass (rmatch : String → String → Bool) (a : SearchArgs) (filepath : String) : Bool :=
  matches_exclusion_criteria rmatch filepath
    (data_to_list a.exclude_pattern) (data_to_list a.exclude_start)
    (data_to_list a.exclude_content) (data_to_list a.exclude_end)
    (data_to_list a.exclude_extension) a.exclude_filter

/-- Processing of one `os.walk` entry `(root, files)` inside the search
loop: if `exclude_subdirectory` is non-empty and some fragment occurs as a
substring of the root path, the entry is skipped wholesale (`continue`);
otherwise each file is joined to the root and kept when it satisfies the
inclusion criteria and not the exclusion criteria. -/
def dirEntryFiles (rmatch : String → String → Bool) (a : SearchArgs)
    (entry : String × List String) : List String :=
  let exsub := data_to_list a.exclude_subdirectory
  if !exsub.isEmpty && exsub.any (fun ex => substrB ex entry.1) then []
  else
    entry.2.filterMap (fun file =>
      let filepath := joinPath entry.1 file
      if inclPass rmatch a filepath && !exclPass rmatch a filepath
      then some filepath else none)

/-- Embedding of `search_files`: parameter type check, normalization,
defaulting of the roots to the current working directory, eager existence
check of every root (the first missing one is reported), then the walk of
each root in declaration order with per-entry filtering. -/
def search_files (rmatch : String → String → Bool) (fs : String → Option FSTree)
    (cwd : String) (a : SearchArgs) : Except SearchError (List String) :=
  if !a.typeChecksPass then .error .typeError
  else
    let roots := a.roots cwd
    match roots.find? (fun d => !(fs d).isSome) with
    | some d => .error (.fileNotFound d)
    | none =>
      .ok (roots.flatMap (fun d =>
        match fs d with
        | none => []
        | some t => (walk t d).flatMap (dirEntryFiles rmatch a)))

/-- Evaluation model of `matches_criteria` when the custom callable can
raise: Python evaluates the pure string conjuncts first and, thanks to
short-circuiting `and`, calls the callable only when they all hold. A
raising call is an `Except.error`. -/
def matches_criteriaE {E : Type} (rmatch : String → String → Bool) (filepath : String)
    (patterns starts contains ends exts : List String)
    (filter : Option (String → Except E Bool)) : Except E Bool :=
  let comps := extract_file_components filepath
  let filename := comps.2.1
  let extension := comps.2.2
  if (starts.isEmpty || starts.any (fun s => startsB filename s)) &&
     (contains.isEmpty || contains.any (fun c => substrB c filename)) &&
     (ends.isEmpty || ends.any (fun e => endsB filename e)) &&
     (exts.isEmpty || exts.any (fun e => extension == e)) &&
     (patterns.isEmpty || patterns.any (fun p => rmatch p filename)) then
    match filter with
    | none => .ok true
    | some f => f filepath
  else .ok false

/-- Evaluation model of `matches_exclusion_criteria` when the custom
callable can raise: short-circuiting `or` calls the callable only when no
string group matched. -/
def matches_exclusion_criteriaE {E : Type} (rmatch : String → String → Bool) (filepath : String)
    (patterns starts contains ends exts : List String)
    (filter : Option (String → Except E Bool)) : Except E Bool :=
  let comps := extract_file_components filepath
  let filename := comps.2.1
  let extension := comps.2.2
  if (!starts.isEmpty && starts.any (fun s => startsB filename s)) ||
     (!contains.isEmpty && contains.any (fun c => substrB c filename)) ||
     (!ends.isEmpty && ends.any (fun e => endsB filename e)) ||
     (!exts.isEmpty && exts.any (fun e => extension == e)) ||
     (!patterns.isEmpty && patterns.any (fun p => rmatch p filename)) then
    .ok true
  else
    match filter with
    | none => .ok false
    | some f => f filepath

/-- Embedding of `extract_file_components` at the Python-value level,
covering the non-string branch that raises `TypeError`. -/
def extract_file_componentsPy : PyVal → Except SearchError (String × String × String)
  | .pyStr s => .ok (extract_file_components s)
  | _ => .error .typeError

/-- Abstract syntax of the fragment of Python regular expressions used by
the specification scenarios: the empty language, the empty word, a literal
character, the class backslash-d of digits, the any-character dot, the
end-of-subject anchor (dollar), concatenation, alternation and the Kleene
star. The subject is processed as a list of symbols `Option Char`, where
`none` is a virtual end-of-subject marker appended after the last real
character; only the anchor consumes it. -/
inductive Regex where
  | emp : Regex
  | eps : Regex
  | chr : Char → Regex
  | digit : Regex
  | dot : Regex
  | eos : Regex
  | seq : Regex → Regex → Regex
  | alt : Regex → Regex → Regex
  | star : Regex → Regex

/-- Whether a regex accepts the empty symbol sequence. -/
def Regex.nullB : Regex → Bool
  | .emp | .chr _ | .digit | .dot | .eos => false
  | .eps => true
  | .seq a b => a.nullB && b.nullB
  | .alt a b => a.nullB || b.nullB
  | .star _ => true

/-- Brzozowski derivative of a regex with respect to one symbol. -/
def Regex.deriv : Regex → Option Char → Regex
  | .emp, _ => .emp
  | .eps, _ => .emp
  | .chr c, some x => if x = c then .eps else .emp
  | .chr _, none => .emp
  | .digit, some x => if x.isDigit then .eps else .emp
  | .digit, none => .emp
  | .dot, some _ => .eps
  | .dot, none => .emp
  | .eos, some _ => .emp
  | .eos, none => .eps
  | .seq a b, x =>
    if a.nullB then .alt (.seq (a.deriv x) b) (b.deriv x) else .seq (a.deriv x) b
  | .alt a b, x => .alt (a.deriv x) (b.deriv x)
  | .star r, x => .seq (r.deriv x) (.star r)

/-- Whether a regex matches a symbol sequence exactly, by iterated
derivatives. -/
def Regex.matchList : Regex → List (Option Char) → Bool
  | r, [] => r.nullB
  | r, a :: rest => (r.deriv a).matchList rest

/-- A regex consuming any single symbol, real character or end marker. -/
def Regex.anySym : Regex := .alt .dot .eos

/-- The subject string as symbol sequence: its characters followed by the
end marker. -/
def subjectSyms (s : String) : List (Option Char) :=
  s.data.map some ++ [none]

/-- Semantics of `re.match(r, s)`: the regex must match a prefix of the
subject, the rest being arbitrary (the trailing `anySym` star). -/
def reMatch (r : Regex) (s : String) : Bool :=
  Regex.matchList (.seq r (.star Regex.anySym)) (subjectSyms s)

/-- Semantics of `re.fullmatch(r, s)`: the regex must consume the whole
subject (the optional trailing anchor absorbs the end marker when the
regex itself did not). -/
def reFullmatch (r : Regex) (s : String) : Bool :=
  Regex.matchList (.seq r (.alt .eps .eos)) (subjectSyms s)

/-- Semantics of `re.search(r, s)`: a match may begin at any position of
the subject. -/
def reSearch (r : Regex) (s : String) : Bool :=
  (List.range (s.length + 1)).any
    (fun i => reMatch r (String.mk (s.data.drop i)))

/-- Literal string as a regex. -/
def strToRegex (s : String) : Regex :=
  s.data.foldr (fun c r => .seq (.chr c) r) .eps

/-- The scenario pattern of the specification: caret, the literal `data`,
one or more digits, dollar (the leading caret is the implicit anchoring of
`re.match` and adds no node). -/
def patData : Regex :=
  .seq (strToRegex "data") (.seq (.seq .digit (.star .digit)) .eos)

/-- Denotational language of a regex over symbol sequences; the engine is
proved equivalent to it below. The star case requires a non-empty first
chunk so that derivations are finite. -/
inductive RLang : Regex → List (Option Char) → Prop
  | eps : RLang .eps []
  | chr : ∀ c, RLang (.chr c) [some c]
  | digit : ∀ c, c.isDigit = true → RLang .digit [some c]
  | dot : ∀ c, RLang .dot [some c]
  | eos : RLang .eos [none]
  | seq : ∀ {a b xs ys}, RLang a xs → RLang b ys → RLang (.seq a b) (xs ++ ys)
  | altL : ∀ {a b xs}, RLang a xs → RLang (.alt a b) xs
  | altR : ∀ {a b xs}, RLang b xs → RLang (.alt a b) xs
  | starNil : ∀ {r}, RLang (.star r) []
  | starCons : ∀ {r xs ys}, xs ≠ [] → RLang r xs → RLang (.star r) ys →
      RLang (.star r) (xs ++ ys)

/-- Whether a regex is free of the end anchor. -/
def Regex.noEos : Regex → Bool
  | .eos => false
  | .seq a b => a.noEos && b.noEos
  | .alt a b => a.noEos && b.noEos
  | .star r => r.noEos
  | _ => true

/-- Normalization of a character sequence collapsing each run of
separators to a single one; two paths are equivalent under the host
path-joining rules exactly when they normalize identically. -/
def collapseSep : List Char → List Char
  | [] => []
  | c :: rest =>
    if c = '/' then '/' :: collapseSep (rest.dropWhile (fun x => x = '/'))
    else c :: collapseSep rest
termination_by l => l.length
decreasing_by
  · have h2 : (rest.dropWhile (fun x => x = '/')).length ≤ rest.length :=
      (List.dropWhile_suffix _).length_le
    simp
    omega
  · simp

/-- Path equivalence: equality of separator-collapsed character data. -/
def pathEquiv (p q : String) : Prop :=
  collapseSep p.data = collapseSep q.data

/-! Concrete fixtures used by the witnesses and the code-bug evaluation. -/

/-- A regex-free matcher for fixtures that declare no patterns. -/
def wNoMatch : String → String → Bool := fun _ _ => false

/-- Fixture tree: files a.py and b.txt at the root, c.py inside sub. -/
def wTree : FSTree := .mk [("sub", .mk [] ["c.py"])] ["a.py", "b.txt"]

/-- Fixture filesystem: the absolute directory /r holds the fixture tree. -/
def wFs : String → Option FSTree := fun d => if d = "/r" then some wTree else none

/-- Fixture arguments: search /r with no filters. -/
def wArgs : SearchArgs := { include_directory := .pyStr "/r" }

/-- Result of the fixture search, in walk order. -/
def wRes : List String := ["/r/a.py", "/r/b.txt", "/r/sub/c.py"]

/-- Fixture arguments excluding the fragment sub. -/
def wExArgs : SearchArgs :=
  { include_directory := .pyStr "/r", exclude_subdirectory := .pyStr "sub" }

/-- Fixture arguments excluding the empty fragment. -/
def wEmptyExArgs : SearchArgs :=
  { include_directory := .pyStr "/r", exclude_subdirectory := .pyStr "" }

/-- POSIX `os.path.isabs`. -/
def osIsAbs (s : String) : Bool := startsB s "/"

/-- Fixture tree for the relative-root evaluation. -/
def relTree : FSTree := .mk [] ["a.txt"]

/-- Fixture filesystem where the relative directory rel exists. -/
def wRelFs : String → Option FSTree := fun d => if d = "rel" then some relTree else none

/-! Lemmas about the walk. -/

lemma mem_walkDirs (dirs : List (String × FSTree)) (files : List String)
    (path p : String) (t' : FSTree) :
    (p, t') ∈ walkDirs (.mk dirs files) path ↔
      (p = path ∧ t' = .mk dirs files) ∨
        ∃ x ∈ dirs, (p, t') ∈ walkDirs x.2 (joinPath path x.1) := by
  rw [walkDirs]
  simp only [List.mem_cons, List.mem_flatMap, List.mem_attach, true_and,
    Prod.mk.injEq, Subtype.exists]
  constructor
  · rintro (⟨h1, h2⟩ | ⟨⟨name, sub⟩, hmem, hin⟩)
    · exact Or.inl ⟨h1, h2⟩
    · exact Or.inr ⟨(name, sub), hmem, hin⟩
  · rintro (⟨h1, h2⟩ | ⟨⟨name, sub⟩, hmem, hin⟩)
    · exact Or.inl ⟨h1, h2⟩
    · exact Or.inr ⟨⟨name, sub⟩, hmem, hin⟩

lemma wf_mem {dirs : List (String × FSTree)} {files : List String}
    {name : String} {sub : FSTree}
    (hwf : FSTree.Wf (.mk dirs files)) (hx : (name, sub) ∈ dirs) :
    startsB name "/" = false ∧ sub.Wf := by
  cases hwf with
  | node dirs files hname hsub => exact ⟨hname name sub hx, hsub name sub hx⟩

lemma joinPath_extends (p f : String) (h : startsB f "/" = false) :
    p.data <+: (joinPath p f).data := by
  unfold joinPath
  rw [h]
  simp only [Bool.false_eq_true, if_false]
  by_cases h2 : (p = "" || endsB p "/") = true
  · rw [if_pos h2, String.data_append]
    exact List.prefix_append _ _
  · rw [if_neg h2, String.data_append, String.data_append, List.append_assoc]
    exact List.prefix_append _ _

lemma walkDirs_extends :
    ∀ (n : ℕ) (t : FSTree), sizeOf t ≤ n →
      ∀ (path p : String) (t' : FSTree), t.Wf →
        (p, t') ∈ walkDirs t path → path.data <+: p.data ∧ t'.Wf := by
  intro n
  induction n with
  | zero =>
    intro t ht
    cases t with
    | mk dirs files => simp at ht
  | succ n ih =>
    intro t ht path p t' hwf hmem
    cases t with
    | mk dirs files =>
      rw [mem_walkDirs] at hmem
      rcases hmem with ⟨rfl, rfl⟩ | ⟨⟨name, sub⟩, hx, hmem⟩
      · exact ⟨List.prefix_refl _, hwf⟩
      · have hsz := List.sizeOf_lt_of_mem hx
        simp only [Prod.mk.sizeOf_spec] at hsz
        have hts : sizeOf (FSTree.mk dirs files) = 1 + sizeOf dirs + sizeOf files := by
          simp
        have hsub : sizeOf sub ≤ n := by omega
        have hgood := wf_mem hwf hx
        have hrec := ih sub hsub (joinPath path name) p t' hgood.2 hmem
        exact ⟨(joinPath_extends path name hgood.1).trans hrec.1, hrec.2⟩

lemma substrB_of_extends {ex p q : String} (h : substrB ex p = true)
    (h2 : p.data <+: q.data) : substrB ex q = true := by
  unfold substrB at h ⊢
  rw [decide_eq_true_eq] at h ⊢
  exact h.trans h2.isInfix

lemma dirEntryFiles_eq_nil (rmatch : String → String → Bool) (a : SearchArgs)
    (entry : String × List String) (ex : String)
    (hex : ex ∈ data_to_list a.exclude_subdirectory)
    (hsub : substrB ex entry.1 = true) :
    dirEntryFiles rmatch a entry = [] := by
  unfold dirEntryFiles
  rw [if_pos]
  rw [Bool.and_eq_true]
  constructor
  · simp only [Bool.not_eq_true']
    rw [List.isEmpty_eq_false]
    intro hnil
    rw [hnil] at hex
    exact absurd hex (List.not_mem_nil ex)
  · rw [List.any_eq_true]
    exact ⟨ex, hex, hsub⟩

lemma skip_false_iff (l : List String) (root : String) :
    ((!l.isEmpty && l.any fun ex => substrB ex root) = false) ↔
      ∀ ex ∈ l, substrB ex root = false := by
  rcases l with _ | ⟨x, xs⟩
  · simp
  · simp only [List.isEmpty_cons, Bool.not_false, Bool.true_and]
    rw [List.any_eq_false]
    constructor
    · intro h ex hex
      exact Bool.not_eq_true _ ▸ (by simpa using h ex hex)
    · intro h ex hex
      simp [h ex hex]

lemma mem_dirEntryFiles (rmatch : String → String → Bool) (a : SearchArgs)
    (root : String) (files : List String) (fp : String) :
    fp ∈ dirEntryFiles rmatch a (root, files) ↔
      (∀ ex ∈ data_to_list a.exclude_subdirectory, substrB ex root = false) ∧
      ∃ file ∈ files, fp = joinPath root file ∧
        inclPass rmatch a fp = true ∧ exclPass rmatch a fp = false := by
  unfold dirEntryFiles
  by_cases hskip : (!(data_to_list a.exclude_subdirectory).isEmpty &&
      (data_to_list a.exclude_subdirectory).any fun ex => substrB ex root) = true
  · rw [if_pos hskip]
    simp only [List.not_mem_nil, false_iff]
    rintro ⟨hall, -⟩
    rw [Bool.and_eq_true, List.any_eq_true] at hskip
    obtain ⟨-, ex, hex, hsub⟩ := hskip
    rw [hall ex hex] at hsub
    exact Bool.false_ne_true hsub
  · rw [if_neg hskip]
    rw [Bool.not_eq_true, skip_false_iff] at hskip
    rw [List.mem_filterMap]
    constructor
    · rintro ⟨file, hfile, hsome⟩
      dsimp only at hsome
      split at hsome
      next hcond =>
        rw [Option.some.injEq] at hsome
        rw [Bool.and_eq_true, Bool.not_eq_true'] at hcond
        exact ⟨hskip, file, hfile, hsome.symm, hsome ▸ hcond.1, hsome ▸ hcond.2⟩
      next => exact absurd hsome (by simp)
    · rintro ⟨-, file, hfile, rfl, hincl, hexcl⟩
      refine ⟨file, hfile, ?_⟩
      rw [if_pos]
      rw [Bool.and_eq_true, Bool.not_eq_true']
      exact ⟨hincl, hexcl⟩

/-- Claim C1: a file path is in the result exactly when it arises from a
walk entry of one of the effective roots whose directory path is hit by no
exclude_subdirectory fragment, and it satisfies the inclusion criteria
(each declared include group vacuously true when empty or matched by some
element) and does not satisfy the exclusion criteria (no declared exclude
group matches and the custom exclude predicate, if present, is false); in
particular a file matching all include filters but some exclude filter is
not returned. -/
theorem search_files_mem_iff
    (rmatch : String → String → Bool) (fs : String → Option FSTree) (cwd : String)
    (a : SearchArgs) (result : List String)
    (hok : search_files rmatch fs cwd a = .ok result) (fp : String) :
    fp ∈ result ↔
      ∃ d t root files file,
        d ∈ a.roots cwd ∧ fs d = some t ∧ (root, files) ∈ walk t d ∧
        file ∈ files ∧ fp = joinPath root file ∧
        (∀ ex ∈ data_to_list a.exclude_subdirectory, substrB ex root = false) ∧
        inclPass rmatch a fp = true ∧ exclPass rmatch a fp = false := by
  unfold search_files at hok
  by_cases hty : (!a.typeChecksPass) = true
  · rw [if_pos hty] at hok
    exact absurd hok (by simp)
  · rw [if_neg hty] at hok
    dsimp only at hok
    rcases hfind : List.find? (fun d => !(fs d).isSome) (a.roots cwd) with _ | d0
    · rw [hfind] at hok
      simp only [Except.ok.injEq] at hok
      subst hok
      rw [List.mem_flatMap]
      constructor
      · rintro ⟨d, hd, hmem⟩
        rcases hfs : fs d with _ | t
        · rw [hfs] at hmem
          exact absurd hmem (List.not_mem_nil _)
        · rw [hfs] at hmem
          rw [List.mem_flatMap] at hmem
          obtain ⟨⟨root, files⟩, hentry, hmem⟩ := hmem
          rw [mem_dirEntryFiles] at hmem
          obtain ⟨hall, file, hfile, rfl, hincl, hexcl⟩ := hmem
          exact ⟨d, t, root, files, file, hd, hfs, hentry, hfile, rfl, hall, hincl, hexcl⟩
      · rintro ⟨d, t, root, files, file, hd, hfs, hentry, hfile, rfl, hall, hincl, hexcl⟩
        refine ⟨d, hd, ?_⟩
        rw [hfs, List.mem_flatMap]
        exact ⟨(root, files), hentry,
          (mem_dirEntryFiles rmatch a root files _).mpr ⟨hall, file, hfile, rfl, hincl, hexcl⟩⟩
    · rw [hfind] at hok
      exact absurd hok (by simp)

lemma walk_contributes_nothing (rmatch : String → String → Bool) (a : SearchArgs)
    (t : FSTree) (p : String) (hwf : t.Wf) (ex : String)
    (hex : ex ∈ data_to_list a.exclude_subdirectory) (hsub : substrB ex p = true) :
    (∀ entry ∈ walk t p, dirEntryFiles rmatch a entry = []) ∧
      (walk t p).flatMap (dirEntryFiles rmatch a) = [] := by
  have hmain : ∀ entry ∈ walk t p, dirEntryFiles rmatch a entry = [] := by
    rintro ⟨q, files⟩ hq
    rw [walk, List.mem_map] at hq
    obtain ⟨⟨q', t''⟩, hq', heq⟩ := hq
    have h1 : q' = q := congrArg Prod.fst heq
    have hpq := (walkDirs_extends (sizeOf t) t le_rfl p q' t'' hwf hq').1
    rw [← h1]
    exact dirEntryFiles_eq_nil rmatch a (q', files) ex hex (substrB_of_extends hsub hpq)
  refine ⟨hmain, ?_⟩
  rw [List.flatMap_eq_nil_iff]
  exact hmain

/-- Claim C2: when a visited directory of the walk has a full traversed
path containing some exclude_subdirectory fragment as a substring, neither
the files directly within it nor any file in the directories below it
contribute anything to the result (every walk entry of its subtree is
mapped to the empty contribution), and the fragment match is plain
substring containment, so the fragment sub also prunes a directory named
subdirectory. -/
theorem excluded_dir_contributes_nothing
    (rmatch : String → String → Bool) (a : SearchArgs) (t : FSTree) (d : String)
    (hwf : t.Wf) (p : String) (t' : FSTree)
    (hvisit : (p, t') ∈ walkDirs t d) (ex : String)
    (hex : ex ∈ data_to_list a.exclude_subdirectory)
    (hsub : substrB ex p = true) :
    (∀ entry ∈ walk t' p, dirEntryFiles rmatch a entry = []) ∧
      (walk t' p).flatMap (dirEntryFiles rmatch a) = [] ∧
      substrB "sub" "/r/subdirectory" = true := by
  have hwf' : t'.Wf :=
    (walkDirs_extends (sizeOf t) t le_rfl d p t' hwf hvisit).2
  have h := walk_contributes_nothing rmatch a t' p hwf' ex hex hsub
  exact ⟨h.1, h.2, by decide⟩

/-- Claim C10: when some exclude_subdirectory fragment is the empty string
or a substring of a declared root directory path, every directory visited
under that root, the root itself included, is skipped, so the root
contributes no files. -/
theorem excluded_root_contributes_nothing
    (rmatch : String → String → Bool) (a : SearchArgs) (t : FSTree) (d : String)
    (hwf : t.Wf) (ex : String)
    (hex : ex ∈ data_to_list a.exclude_subdirectory)
    (hcase : ex = "" ∨ substrB ex d = true) :
    (∀ entry ∈ walk t d, dirEntryFiles rmatch a entry = []) ∧
      (walk t d).flatMap (dirEntryFiles rmatch a) = [] := by
  have hx : substrB ex d = true := by
    rcases hcase with rfl | h
    · unfold substrB
      rw [decide_eq_true_eq]
      exact List.nil_infix
    · exact h
  exact walk_contributes_nothing rmatch a t d hwf ex hex hx

lemma dirEntryFiles_ignore_incdir (rmatch : String → String → Bool) (v : PyVal)
    (a : SearchArgs) :
    dirEntryFiles rmatch { a with include_directory := v } = dirEntryFiles rmatch a := by
  funext entry
  rfl

/-- Claim C3: when no root directory is given, include_directory being
absent or an empty sequence, the current working directory is the sole
effective root and the search behaves exactly as if that directory had
been passed explicitly. -/
theorem default_root_is_cwd
    (rmatch : String → String → Bool) (fs : String → Option FSTree) (cwd : String)
    (a : SearchArgs)
    (h : a.include_directory = .pyNone ∨ a.include_directory = .pyList [] ∨
         a.include_directory = .pyTuple []) :
    a.roots cwd = [cwd] ∧
      search_files rmatch fs cwd a =
        search_files rmatch fs cwd { a with include_directory := .pyList [.pyStr cwd] } := by
  obtain ⟨incdir, ipat, ista, icon, iend, iext, ifil, exsub, epat, esta, econ, eend, eext,
    efil⟩ := a
  simp only [SearchArgs.include_directory] at h
  rcases h with rfl | rfl | rfl
  · exact ⟨rfl, rfl⟩
  · exact ⟨rfl, rfl⟩
  · exact ⟨rfl, rfl⟩

/-- Claim C5: a type error is raised exactly when one of the twelve
non-callable filter arguments fails the type check; the error does not
depend on the filesystem or working directory (it precedes any filesystem
access), and the two custom predicates are never type-validated (changing
them cannot change the outcome of the check). -/
theorem type_error_iff
    (rmatch : String → String → Bool) (fs : String → Option FSTree) (cwd : String)
    (a : SearchArgs) :
    (search_files rmatch fs cwd a = .error .typeError ↔ a.typeChecksPass = false) ∧
    (a.typeChecksPass = false →
      ∀ (fs' : String → Option FSTree) (cwd' : String),
        search_files rmatch fs' cwd' a = .error .typeError) ∧
    (∀ (f g : Option (String → Bool)),
      SearchArgs.typeChecksPass { a with include_filter := f, exclude_filter := g } =
        a.typeChecksPass) := by
  refine ⟨?_, ?_, fun f g => rfl⟩
  · by_cases hty : a.typeChecksPass = true
    · unfold search_files
      rw [hty]
      simp only [Bool.not_true, Bool.false_eq_true, if_false]
      constructor
      · intro h
        rcases hfind : List.find? (fun d => !(fs d).isSome) (a.roots cwd) with _ | d0 <;>
          rw [hfind] at h <;> exact absurd h (by simp)
      · intro h
        exact absurd h (by simp)
    · rw [Bool.not_eq_true] at hty
      unfold search_files
      rw [hty]
      simp [hty]
  · intro hty fs' cwd'
    unfold search_files
    rw [hty]
    rfl

/-- Claim C6: with well-typed filter arguments, if some effective root
directory does not exist (or is not a directory), the call fails with a
not-found error naming a failing root, before any traversal, and returns
no files. -/
theorem not_found_before_traversal
    (rmatch : String → String → Bool) (fs : String → Option FSTree) (cwd : String)
    (a : SearchArgs) (hty : a.typeChecksPass = true) (d : String)
    (hd : d ∈ a.roots cwd) (hmiss : fs d = none) :
    ∃ d', search_files rmatch fs cwd a = .error (.fileNotFound d') ∧
      d' ∈ a.roots cwd ∧ fs d' = none := by
  have hsome : (List.find? (fun d => !(fs d).isSome) (a.roots cwd)).isSome := by
    rw [List.find?_isSome]
    exact ⟨d, hd, by rw [hmiss]; rfl⟩
  rcases hfind : List.find? (fun d => !(fs d).isSome) (a.roots cwd) with _ | d'
  · rw [hfind] at hsome
    exact absurd hsome (by simp)
  · refine ⟨d', ?_, List.mem_of_find?_eq_some hfind, ?_⟩
    · unfold search_files
      rw [hty]
      simp only [Bool.not_true, Bool.false_eq_true, if_false]
      rw [hfind]
    · have h3 := List.find?_some hfind
      rw [Bool.not_eq_true'] at h3
      rcases hfs : fs d' with _ | t2
      · rfl
      · rw [hfs] at h3
        exact absurd h3 (by simp)

lemma wTree_wf : FSTree.Wf wTree := by
  refine .node _ _ ?_ ?_ <;> rintro name sub h
  · simp only [wTree, List.mem_singleton, Prod.mk.injEq] at h
    rw [h.1]
    decide
  · simp only [wTree, List.mem_singleton, Prod.mk.injEq] at h
    rw [h.2]
    refine .node _ _ ?_ ?_ <;> rintro name2 sub2 h2 <;>
      exact absurd h2 (List.not_mem_nil _)

lemma wSearch_eval : search_files wNoMatch wFs "/c" wArgs = .ok wRes := by
  simp +decide [search_files, wFs, wTree, wArgs, wRes, walk, walkDirs, joinPath, dirEntryFiles,
    inclPass, exclPass, matches_criteria, matches_exclusion_criteria, data_to_list,
    check_type_union, SearchArgs.typeChecksPass, SearchArgs.roots, extract_file_components,
    osSplit, splitextName, splitext, substrB, FSTree.files]

/-- Claim C1 witness: the characterization instantiated on the fixture. -/
theorem search_files_mem_iff_witness :
    "/r/a.py" ∈ wRes ↔
      ∃ d t root files file,
        d ∈ wArgs.roots "/c" ∧ wFs d = some t ∧ (root, files) ∈ walk t d ∧
        file ∈ files ∧ "/r/a.py" = joinPath root file ∧
        (∀ ex ∈ data_to_list wArgs.exclude_subdirectory, substrB ex root = false) ∧
        inclPass wNoMatch wArgs "/r/a.py" = true ∧
        exclPass wNoMatch wArgs "/r/a.py" = false :=
  search_files_mem_iff wNoMatch wFs "/c" wArgs wRes wSearch_eval "/r/a.py"

/-- Claim C2 witness: the excluded subtree of the fixture contributes
nothing. -/
theorem excluded_dir_contributes_nothing_witness :
    (∀ entry ∈ walk (FSTree.mk [] ["c.py"]) "/r/sub",
        dirEntryFiles wNoMatch wExArgs entry = []) ∧
      (walk (FSTree.mk [] ["c.py"]) "/r/sub").flatMap (dirEntryFiles wNoMatch wExArgs) = [] ∧
      substrB "sub" "/r/subdirectory" = true :=
  excluded_dir_contributes_nothing wNoMatch wExArgs wTree "/r" wTree_wf "/r/sub"
    (.mk [] ["c.py"])
    (by simp +decide [walkDirs, wTree, joinPath, startsB, endsB])
    "sub" (by simp [wExArgs, data_to_list]) (by decide)

/-- Claim C10 witness: the empty fragment suppresses the whole fixture
root. -/
theorem excluded_root_contributes_nothing_witness :
    (∀ entry ∈ walk wTree "/r", dirEntryFiles wNoMatch wEmptyExArgs entry = []) ∧
      (walk wTree "/r").flatMap (dirEntryFiles wNoMatch wEmptyExArgs) = [] :=
  excluded_root_contributes_nothing wNoMatch wEmptyExArgs wTree "/r" wTree_wf ""
    (by simp [wEmptyExArgs, data_to_list]) (Or.inl rfl)

/-- Claim C3 witness: the all-defaults call equals the explicit-cwd call
on the fixture filesystem. -/
theorem default_root_is_cwd_witness :
    SearchArgs.roots {} "/c" = ["/c"] ∧
      search_files wNoMatch wFs "/c" {} =
        search_files wNoMatch wFs "/c"
          { ({} : SearchArgs) with include_directory := .pyList [.pyStr "/c"] } :=
  default_root_is_cwd wNoMatch wFs "/c" {} (Or.inl rfl)

/-- Claim C5 witness: the equivalence instantiated on an ill-typed
argument list. -/
theorem type_error_iff_witness :
    (search_files wNoMatch wFs "/c" { include_start := .pyInt 0 } = .error .typeError ↔
      SearchArgs.typeChecksPass { include_start := .pyInt 0 } = false) ∧
    (SearchArgs.typeChecksPass { include_start := .pyInt 0 } = false →
      ∀ (fs' : String → Option FSTree) (cwd' : String),
        search_files wNoMatch fs' cwd' { include_start := .pyInt 0 } = .error .typeError) ∧
    (∀ (f g : Option (String → Bool)),
      SearchArgs.typeChecksPass
          { ({ include_start := .pyInt 0 } : SearchArgs) with
            include_filter := f, exclude_filter := g } =
        SearchArgs.typeChecksPass { include_start := .pyInt 0 }) :=
  type_error_iff wNoMatch wFs "/c" { include_start := .pyInt 0 }

/-- Claim C6 witness: a missing second root is reported on the fixture. -/
theorem not_found_before_traversal_witness :
    ∃ d', search_files wNoMatch wFs "/c"
        { include_directory := .pyList [.pyStr "/r", .pyStr "/missing"] } =
        .error (.fileNotFound d') ∧
      d' ∈ SearchArgs.roots
        { include_directory := .pyList [.pyStr "/r", .pyStr "/missing"] } "/c" ∧
      wFs d' = none :=
  not_found_before_traversal wNoMatch wFs "/c"
    { include_directory := .pyList [.pyStr "/r", .pyStr "/missing"] }
    rfl "/missing" (by decide) rfl

/-- Claim C4 evaluation: searching from the relative root rel returns the
path rel/a.txt, which is not absolute; the code joins the walk root as
given and never makes it absolute, contradicting its own documentation
and the specification. -/
theorem relative_root_relative_result :
    search_files wNoMatch wRelFs "/c" { include_directory := .pyStr "rel" } =
        .ok ["rel/a.txt"] ∧
      osIsAbs "rel/a.txt" = false := by
  constructor
  · simp +decide [search_files, wRelFs, relTree, walk, walkDirs, joinPath, dirEntryFiles,
      inclPass, exclPass, matches_criteria, matches_exclusion_criteria, data_to_list,
      check_type_union, SearchArgs.typeChecksPass, SearchArgs.roots, extract_file_components,
      osSplit, splitextName, splitext, substrB, FSTree.files]
  · decide

/-- Claim C9: the custom callables are evaluated last and lazily. The
include callable runs only when every declared string include group is
already satisfied (first conjunct: when the string criteria reject the
file the possibly-raising callable is never consulted and the answer is
false; second conjunct: when they accept, the outcome is exactly the
callable's outcome, errors included). The exclude callable runs only when
no string exclude group matched (third and fourth conjuncts), so an
exception from a callable propagates only for files the string criteria
left undecided. -/
theorem custom_filters_lazy {E : Type}
    (rmatch : String → String → Bool) (fp : String)
    (ipats ista icon iend iext : List String)
    (epats esta econ eend eext : List String)
    (f g : String → Except E Bool) :
    (matches_criteria rmatch fp ipats ista icon iend iext none = false →
      matches_criteriaE rmatch fp ipats ista icon iend iext (some f) = .ok false) ∧
    (matches_criteria rmatch fp ipats ista icon iend iext none = true →
      matches_criteriaE rmatch fp ipats ista icon iend iext (some f) = f fp) ∧
    (matches_exclusion_criteria rmatch fp epats esta econ eend eext none = true →
      matches_exclusion_criteriaE rmatch fp epats esta econ eend eext (some g) = .ok true) ∧
    (matches_exclusion_criteria rmatch fp epats esta econ eend eext none = false →
      matches_exclusion_criteriaE rmatch fp epats esta econ eend eext (some g) = g fp) := by
  refine ⟨?_, ?_, ?_, ?_⟩ <;> intro h
  · unfold matches_criteria at h
    dsimp only at h
    rw [Bool.and_eq_false_iff] at h
    unfold matches_criteriaE
    dsimp only
    rw [if_neg]
    rcases h with h | h
    · intro hc
      rw [hc] at h
      exact absurd h (by simp)
    · exact absurd h (by simp)
  · unfold matches_criteria at h
    dsimp only at h
    rw [Bool.and_eq_true] at h
    unfold matches_criteriaE
    dsimp only
    rw [if_pos h.1]
  · unfold matches_exclusion_criteria at h
    dsimp only at h
    rw [Bool.or_eq_true] at h
    unfold matches_exclusion_criteriaE
    dsimp only
    rw [if_pos]
    rcases h with h | h
    · exact h
    · exact absurd h (by simp)
  · unfold matches_exclusion_criteria at h
    dsimp only at h
    rw [Bool.or_eq_false_iff] at h
    unfold matches_exclusion_criteriaE
    dsimp only
    rw [if_neg]
    intro hc
    rw [hc] at h
    exact absurd h.1 (by simp)

/-- Claim C9 witness: on the fixture path whose base name does not start
with x, a raising include callable is never consulted. -/
theorem custom_filters_lazy_witness :
    matches_criteriaE wNoMatch "/r/a.py" [] ["x"] [] [] []
        (some (fun _ => (.error "boom" : Except String Bool))) = .ok false :=
  (custom_filters_lazy wNoMatch "/r/a.py" [] ["x"] [] [] [] [] [] [] [] []
      (fun _ => (.error "boom" : Except String Bool))
      (fun _ => (.error "boom" : Except String Bool))).1 (by decide)

/-! Correctness of the derivative engine with respect to the denotational
language, and the anchored-at-start characterization of `re.match`. -/

lemma rlang_emp_inv {w : List (Option Char)} (h : RLang .emp w) : False := by
  cases h

lemma rlang_eps_inv {w : List (Option Char)} (h : RLang .eps w) : w = [] := by
  cases h
  rfl

lemma rlang_chr_inv {c : Char} {w : List (Option Char)} (h : RLang (.chr c) w) :
    w = [some c] := by
  cases h
  rfl

lemma rlang_digit_inv {w : List (Option Char)} (h : RLang .digit w) :
    ∃ c, c.isDigit = true ∧ w = [some c] := by
  cases h with
  | digit c hc => exact ⟨c, hc, rfl⟩

lemma rlang_dot_inv {w : List (Option Char)} (h : RLang .dot w) :
    ∃ c, w = [some c] := by
  cases h with
  | dot c => exact ⟨c, rfl⟩

lemma rlang_eos_inv {w : List (Option Char)} (h : RLang .eos w) : w = [none] := by
  cases h
  rfl

lemma rlang_seq_inv {a b : Regex} {w : List (Option Char)} (h : RLang (.seq a b) w) :
    ∃ xs ys, w = xs ++ ys ∧ RLang a xs ∧ RLang b ys := by
  cases h with
  | seq h1 h2 => exact ⟨_, _, rfl, h1, h2⟩

lemma rlang_alt_inv {a b : Regex} {w : List (Option Char)} (h : RLang (.alt a b) w) :
    RLang a w ∨ RLang b w := by
  cases h with
  | altL h => exact Or.inl h
  | altR h => exact Or.inr h

lemma rlang_star_inv {r : Regex} {w : List (Option Char)} (h : RLang (.star r) w) :
    w = [] ∨ ∃ xs ys, w = xs ++ ys ∧ xs ≠ [] ∧ RLang r xs ∧ RLang (.star r) ys := by
  cases h with
  | starNil => exact Or.inl rfl
  | starCons hne h1 h2 => exact Or.inr ⟨_, _, rfl, hne, h1, h2⟩

lemma nullB_iff : ∀ r : Regex, r.nullB = true ↔ RLang r [] := by
  intro r
  induction r with
  | emp => exact iff_of_false (by simp [Regex.nullB]) (fun h => rlang_emp_inv h)
  | eps => exact iff_of_true rfl .eps
  | chr c =>
    exact iff_of_false (by simp [Regex.nullB]) (fun h => by simpa using rlang_chr_inv h)
  | digit =>
    refine iff_of_false (by simp [Regex.nullB]) (fun h => ?_)
    obtain ⟨c, -, hc⟩ := rlang_digit_inv h
    simp at hc
  | dot =>
    refine iff_of_false (by simp [Regex.nullB]) (fun h => ?_)
    obtain ⟨c, hc⟩ := rlang_dot_inv h
    simp at hc
  | eos =>
    exact iff_of_false (by simp [Regex.nullB]) (fun h => by simpa using rlang_eos_inv h)
  | seq a b iha ihb =>
    simp only [Regex.nullB, Bool.and_eq_true]
    constructor
    · rintro ⟨h1, h2⟩
      exact RLang.seq (iha.mp h1) (ihb.mp h2)
    · intro h
      obtain ⟨xs, ys, heq, h1, h2⟩ := rlang_seq_inv h
      have h3 := List.append_eq_nil.mp heq.symm
      exact ⟨iha.mpr (h3.1 ▸ h1), ihb.mpr (h3.2 ▸ h2)⟩
  | alt a b iha ihb =>
    simp only [Regex.nullB, Bool.or_eq_true]
    constructor
    · rintro (h | h)
      · exact .altL (iha.mp h)
      · exact .altR (ihb.mp h)
    · intro h
      rcases rlang_alt_inv h with h | h
      · exact Or.inl (iha.mpr h)
      · exact Or.inr (ihb.mpr h)
  | star r ih => exact iff_of_true rfl .starNil

lemma deriv_iff : ∀ (r : Regex) (x : Option Char) (xs : List (Option Char)),
    RLang (r.deriv x) xs ↔ RLang r (x :: xs) := by
  intro r
  induction r with
  | emp =>
    intro x xs
    exact iff_of_false (fun h => rlang_emp_inv h) (fun h => rlang_emp_inv h)
  | eps =>
    intro x xs
    exact iff_of_false (fun h => rlang_emp_inv h) (fun h => by simpa using rlang_eps_inv h)
  | chr c =>
    intro x xs
    cases x with
    | some y =>
      simp only [Regex.deriv]
      by_cases hy : y = c
      · rw [if_pos hy]
        subst hy
        constructor
        · intro h
          rw [rlang_eps_inv h]
          exact .chr y
        · intro h
          have h2 := rlang_chr_inv h
          simp only [List.cons.injEq] at h2
          rw [h2.2]
          exact .eps
      · rw [if_neg hy]
        refine iff_of_false (fun h => rlang_emp_inv h) (fun h => ?_)
        have h2 := rlang_chr_inv h
        simp only [List.cons.injEq, Option.some.injEq] at h2
        exact hy h2.1
    | none =>
      refine iff_of_false (fun h => rlang_emp_inv h) (fun h => ?_)
      have h2 := rlang_chr_inv h
      simp at h2
  | digit =>
    intro x xs
    cases x with
    | some y =>
      simp only [Regex.deriv]
      by_cases hy : y.isDigit = true
      · rw [if_pos hy]
        constructor
        · intro h
          rw [rlang_eps_inv h]
          exact .digit y hy
        · intro h
          obtain ⟨c, -, hc⟩ := rlang_digit_inv h
          simp only [List.cons.injEq] at hc
          rw [hc.2]
          exact .eps
      · rw [if_neg hy]
        refine iff_of_false (fun h => rlang_emp_inv h) (fun h => ?_)
        obtain ⟨c, hcd, hc⟩ := rlang_digit_inv h
        simp only [List.cons.injEq, Option.some.injEq] at hc
        exact hy (hc.1 ▸ hcd)
    | none =>
      refine iff_of_false (fun h => rlang_emp_inv h) (fun h => ?_)
      obtain ⟨c, -, hc⟩ := rlang_digit_inv h
      simp at hc
  | dot =>
    intro x xs
    cases x with
    | some y =>
      constructor
      · intro h
        rw [rlang_eps_inv h]
        exact .dot y
      · intro h
        obtain ⟨c, hc⟩ := rlang_dot_inv h
        simp only [List.cons.injEq] at hc
        rw [hc.2]
        exact .eps
    | none =>
      refine iff_of_false (fun h => rlang_emp_inv h) (fun h => ?_)
      obtain ⟨c, hc⟩ := rlang_dot_inv h
      simp at hc
  | eos =>
    intro x xs
    cases x with
    | some y =>
      refine iff_of_false (fun h => rlang_emp_inv h) (fun h => ?_)
      have h2 := rlang_eos_inv h
      simp at h2
    | none =>
      constructor
      · intro h
        rw [rlang_eps_inv h]
        exact .eos
      · intro h
        have h2 := rlang_eos_inv h
        simp only [List.cons.injEq] at h2
        rw [h2.2]
        exact .eps
  | seq a b iha ihb =>
    intro x xs
    simp only [Regex.deriv]
    by_cases hn : a.nullB = true
    · rw [if_pos hn]
      constructor
      · intro h
        rcases rlang_alt_inv h with h | h
        · obtain ⟨us, vs, heq, h1, h2⟩ := rlang_seq_inv h
          rw [heq, ← List.cons_append]
          exact RLang.seq ((iha x us).mp h1) h2
        · have h0 : RLang a [] := (nullB_iff a).mp hn
          have h2 := (ihb x xs).mp h
          exact RLang.seq h0 h2
      · intro h
        obtain ⟨us, vs, heq, h1, h2⟩ := rlang_seq_inv h
        cases us with
        | nil =>
          simp only [List.nil_append] at heq
          refine .altR ((ihb x xs).mpr ?_)
          rw [heq]
          exact h2
        | cons u us' =>
          simp only [List.cons_append, List.cons.injEq] at heq
          obtain ⟨rfl, heq2⟩ := heq
          refine .altL ?_
          rw [heq2]
          exact RLang.seq ((iha _ us').mpr h1) h2
    · rw [if_neg hn]
      constructor
      · intro h
        obtain ⟨us, vs, heq, h1, h2⟩ := rlang_seq_inv h
        rw [heq, ← List.cons_append]
        exact RLang.seq ((iha x us).mp h1) h2
      · intro h
        obtain ⟨us, vs, heq, h1, h2⟩ := rlang_seq_inv h
        cases us with
        | nil =>
          exact absurd ((nullB_iff a).mpr h1) hn
        | cons u us' =>
          simp only [List.cons_append, List.cons.injEq] at heq
          obtain ⟨rfl, heq2⟩ := heq
          rw [heq2]
          exact RLang.seq ((iha _ us').mpr h1) h2
  | alt a b iha ihb =>
    intro x xs
    simp only [Regex.deriv]
    constructor
    · intro h
      rcases rlang_alt_inv h with h | h
      · exact .altL ((iha x xs).mp h)
      · exact .altR ((ihb x xs).mp h)
    · intro h
      rcases rlang_alt_inv h with h | h
      · exact .altL ((iha x xs).mpr h)
      · exact .altR ((ihb x xs).mpr h)
  | star r ih =>
    intro x xs
    simp only [Regex.deriv]
    constructor
    · intro h
      obtain ⟨us, vs, heq, h1, h2⟩ := rlang_seq_inv h
      rw [heq, ← List.cons_append]
      exact RLang.starCons (by simp) ((ih x us).mp h1) h2
    · intro h
      rcases rlang_star_inv h with h | ⟨us, vs, heq, hne, h1, h2⟩
      · simp at h
      · cases us with
        | nil => exact absurd rfl hne
        | cons u us' =>
          simp only [List.cons_append, List.cons.injEq] at heq
          obtain ⟨rfl, heq2⟩ := heq
          rw [heq2]
          exact RLang.seq ((ih _ us').mpr h1) h2

lemma matchList_iff : ∀ (xs : List (Option Char)) (r : Regex),
    Regex.matchList r xs = true ↔ RLang r xs := by
  intro xs
  induction xs with
  | nil =>
    intro r
    rw [Regex.matchList]
    exact nullB_iff r
  | cons x rest ih =>
    intro r
    rw [Regex.matchList]
    rw [ih (r.deriv x)]
    exact deriv_iff r x rest

lemma star_anySym_all : ∀ xs : List (Option Char), RLang (.star Regex.anySym) xs := by
  intro xs
  induction xs with
  | nil => exact .starNil
  | cons x rest ih =>
    have h1 : RLang Regex.anySym [x] := by
      cases x with
      | some c => exact .altL (.dot c)
      | none => exact .altR .eos
    exact RLang.starCons (by simp) h1 ih

lemma noEos_no_none : ∀ {r : Regex} {xs : List (Option Char)}, RLang r xs →
    r.noEos = true → ∀ x ∈ xs, x ≠ none := by
  intro r xs h
  induction h with
  | eps => intro _ x hx; exact absurd hx (List.not_mem_nil x)
  | chr c => intro _ x hx; rw [List.mem_singleton] at hx; rw [hx]; simp
  | digit c hc => intro _ x hx; rw [List.mem_singleton] at hx; rw [hx]; simp
  | dot c => intro _ x hx; rw [List.mem_singleton] at hx; rw [hx]; simp
  | eos => intro hno; exact absurd hno (by simp [Regex.noEos])
  | seq h1 h2 ih1 ih2 =>
    intro hno x hx
    rw [Regex.noEos, Bool.and_eq_true] at hno
    rcases List.mem_append.mp hx with hx | hx
    · exact ih1 hno.1 x hx
    · exact ih2 hno.2 x hx
  | altL h ih =>
    intro hno x hx
    rw [Regex.noEos, Bool.and_eq_true] at hno
    exact ih hno.1 x hx
  | altR h ih =>
    intro hno x hx
    rw [Regex.noEos, Bool.and_eq_true] at hno
    exact ih hno.2 x hx
  | starNil => intro _ x hx; exact absurd hx (List.not_mem_nil x)
  | starCons hne h1 h2 ih1 ih2 =>
    intro hno x hx
    rw [Regex.noEos] at hno
    rcases List.mem_append.mp hx with hx | hx
    · exact ih1 hno x hx
    · exact ih2 (by rw [Regex.noEos]; exact hno) x hx

lemma reMatch_iff (r : Regex) (s : String) (hno : r.noEos = true) :
    reMatch r s = true ↔
      ∃ n, Regex.matchList r ((s.data.take n).map some) = true := by
  unfold reMatch subjectSyms
  rw [matchList_iff]
  constructor
  · intro h
    obtain ⟨us, vs, heq, h1, h2⟩ := rlang_seq_inv h
    have hsome : ∀ x ∈ us, x ≠ none := noEos_no_none h1 hno
    have hlen : us.length ≤ s.data.length := by
      by_contra hgt
      push_neg at hgt
      have htot : us.length + vs.length = s.data.length + 1 := by
        have h3 := congrArg List.length heq
        have hsl : s.length = s.data.length := rfl
        simp at h3
        omega
      have hvs : vs = [] := by
        rw [← List.length_eq_zero]
        omega
      subst hvs
      rw [List.append_nil] at heq
      have hmem : (none : Option Char) ∈ us := by
        rw [← heq]
        exact List.mem_append_right _ (by simp)
      exact hsome none hmem rfl
    have hus : us = (s.data.take us.length).map some := by
      have h3 : us = (us ++ vs).take us.length := (List.take_left us vs).symm
      rw [← heq] at h3
      rw [List.take_append_of_le_length (by simpa using hlen)] at h3
      rw [← List.map_take] at h3
      exact h3
    refine ⟨us.length, ?_⟩
    rw [matchList_iff, ← hus]
    exact h1
  · rintro ⟨n, h⟩
    rw [matchList_iff] at h
    have hdecomp : s.data.map some ++ [none] =
        (s.data.take n).map some ++ ((s.data.drop n).map some ++ [none]) := by
      rw [← List.append_assoc, ← List.map_append, List.take_append_drop]
    rw [hdecomp]
    exact RLang.seq h (star_anySym_all _)

/-- Claim C7: both criteria test each pattern against the base-name (the
filename component of `extract_file_components`, without directory and
extension) with the `re.match` primitive (first two conjuncts); `re.match`
has anchored-at-start semantics: for an anchor-free regex it succeeds
exactly when the regex matches some prefix of the subject, without having
to consume it whole (third conjunct); on the scenario pattern
caret-data-digits-dollar it accepts data1 and data23 but not mydata1, and
it is neither fullmatch (which rejects data1 against the bare pattern
data) nor search (which accepts mydata1 against data while match rejects
it). -/
theorem pattern_match_semantics :
    (∀ (rmatch : String → String → Bool) (fp : String) (pats : List String),
      matches_criteria rmatch fp pats [] [] [] [] none =
        (pats.isEmpty || pats.any (fun p => rmatch p (extract_file_components fp).2.1))) ∧
    (∀ (rmatch : String → String → Bool) (fp : String) (pats : List String),
      matches_exclusion_criteria rmatch fp pats [] [] [] [] none =
        (!pats.isEmpty && pats.any (fun p => rmatch p (extract_file_components fp).2.1))) ∧
    (∀ (r : Regex) (s : String), r.noEos = true →
      (reMatch r s = true ↔
        ∃ n, Regex.matchList r ((s.data.take n).map some) = true)) ∧
    (reMatch patData "data1" = true ∧ reMatch patData "data23" = true ∧
      reMatch patData "mydata1" = false) ∧
    (reMatch (strToRegex "data") "data1" = true ∧
      reFullmatch (strToRegex "data") "data1" = false) ∧
    (reSearch (strToRegex "data") "mydata1" = true ∧
      reMatch (strToRegex "data") "mydata1" = false) := by
  refine ⟨?_, ?_, reMatch_iff, by decide, by decide, by decide⟩
  · intro rmatch fp pats
    unfold matches_criteria
    dsimp only
    simp
  · intro rmatch fp pats
    unfold matches_exclusion_criteria
    dsimp only
    simp

/-- Claim C7 witness: the anchored-prefix characterization instantiated on
the anchor-free pattern ab and the subject abc. -/
theorem pattern_match_semantics_witness :
    Regex.noEos (strToRegex "ab") = true ∧
      (reMatch (strToRegex "ab") "abc" = true ↔
        ∃ n, Regex.matchList (strToRegex "ab")
          ((("abc" : String).data.take n).map some) = true) :=
  ⟨by decide, pattern_match_semantics.2.2.1 (strToRegex "ab") "abc" (by decide)⟩

/-! Path normalization lemmas for the round-trip law. -/

lemma collapse_dedup : ∀ (x y : List Char),
    collapseSep (x ++ '/' :: '/' :: y) = collapseSep (x ++ '/' :: y) := by
  intro x
  induction x using collapseSep.induct with
  | case1 =>
    intro y
    simp only [List.nil_append]
    rw [collapseSep, collapseSep]
    rw [if_pos rfl, if_pos rfl]
    rw [List.dropWhile_cons]
    simp
  | case2 rest ih =>
    intro y
    simp only [List.cons_append]
    rw [collapseSep, collapseSep]
    rw [if_pos rfl, if_pos rfl]
    congr 1
    rw [List.dropWhile_append, List.dropWhile_append]
    by_cases hre : (rest.dropWhile (fun x => x = '/')).isEmpty = true
    · rw [if_pos hre, if_pos hre]
      rw [List.dropWhile_cons, List.dropWhile_cons]
      simp
    · rw [if_neg hre, if_neg hre]
      exact ih y
  | case3 c rest hc ih =>
    intro y
    simp only [List.cons_append]
    rw [collapseSep, collapseSep]
    rw [if_neg hc, if_neg hc]
    rw [ih y]

lemma collapse_runs : ∀ (k : ℕ) (x y : List Char),
    collapseSep (x ++ List.replicate (k + 1) '/' ++ y) = collapseSep (x ++ '/' :: y) := by
  intro k
  induction k with
  | zero =>
    intro x y
    rw [List.replicate_one, List.append_assoc, List.singleton_append]
  | succ k ih =>
    intro x y
    have h1 : x ++ List.replicate (k + 1 + 1) '/' ++ y =
        x ++ '/' :: '/' :: (List.replicate k '/' ++ y) := by
      rw [List.replicate_succ, List.replicate_succ]
      simp [List.append_assoc]
    have h2 : x ++ '/' :: (List.replicate k '/' ++ y) =
        x ++ List.replicate (k + 1) '/' ++ y := by
      rw [List.replicate_succ]
      simp [List.append_assoc]
    rw [h1, collapse_dedup, h2, ih]

lemma dropWhile_head_false {α : Type} (p : α → Bool) :
    ∀ (l : List α) (x : α) (rest : List α), l.dropWhile p = x :: rest → p x = false := by
  intro l
  induction l with
  | nil =>
    intro x rest h
    exact absurd h (by simp)
  | cons a l ih =>
    intro x rest h
    rw [List.dropWhile_cons] at h
    by_cases ha : p a = true
    · rw [if_pos ha] at h
      exact ih x rest h
    · rw [if_neg ha] at h
      injection h with h1 h2
      rw [← h1]
      rw [Bool.not_eq_true] at ha
      exact ha

lemma takeWhile_eq_self_of_all {α : Type} (p : α → Bool) :
    ∀ l : List α, (∀ a ∈ l, p a = true) → l.takeWhile p = l := by
  intro l
  induction l with
  | nil => intro _; rfl
  | cons a l ih =>
    intro h
    rw [List.takeWhile_cons, if_pos (h a (List.mem_cons_self a l))]
    rw [ih (fun b hb => h b (List.mem_cons_of_mem a hb))]

lemma takeWhile_append_drop_self (p : Char → Bool) :
    ∀ l : List Char, l.takeWhile p ++ l.drop (l.takeWhile p).length = l := by
  intro l
  induction l with
  | nil => rfl
  | cons a l ih =>
    rw [List.takeWhile_cons]
    by_cases ha : p a = true
    · rw [if_pos ha]
      simp only [List.length_cons, List.drop_succ_cons, List.cons_append]
      rw [ih]
    · rw [if_neg ha]
      simp

lemma append_take_sub {l s : List Char} (h : ∃ pre, l = pre ++ s) :
    l.take (l.length - s.length) ++ s = l := by
  obtain ⟨pre, rfl⟩ := h
  rw [List.length_append, Nat.add_sub_cancel, List.take_left]

lemma splitextName_recomb (nm : List Char) :
    (splitextName nm).1 ++ (splitextName nm).2 = nm := by
  unfold splitextName
  dsimp only
  by_cases hdot :
      ((nm.drop (nm.takeWhile (fun c => c = '.')).length).any (fun c => c = '.')) = true
  case neg =>
    rw [if_neg hdot]
    dsimp only
    rw [List.append_nil]
  case pos =>
  rw [if_pos hdot]
  dsimp only
  set L := nm.takeWhile (fun c => c = '.') with hL
  set R := nm.drop L.length with hR
  set A2 := R.reverse.takeWhile (fun c => c ≠ '.') with hA2
  set B2 := R.reverse.dropWhile (fun c => c ≠ '.') with hB2
  have hrest : L ++ R = nm := takeWhile_append_drop_self _ nm
  have hRsplit : A2 ++ B2 = R.reverse := List.takeWhile_append_dropWhile _ _
  have hBne : B2 ≠ [] := by
    intro hnil
    obtain ⟨c0, hc0, hc0eq⟩ := List.any_eq_true.mp hdot
    have hc0d : c0 = '.' := of_decide_eq_true hc0eq
    have hmem : c0 ∈ R.reverse := List.mem_reverse.mpr hc0
    rw [← hRsplit, hnil, List.append_nil] at hmem
    rw [hA2] at hmem
    have h4 := List.mem_takeWhile_imp hmem
    rw [hc0d] at h4
    simp at h4
  clear_value L R A2 B2
  refine append_take_sub ?_
  rcases hBv : B2 with _ | ⟨b, B2'⟩
  · exact absurd hBv hBne
  · have hbdot : b = '.' := by
      have h5 := dropWhile_head_false _ _ _ _ (hB2.symm.trans hBv)
      simpa using h5
    subst hbdot
    refine ⟨L ++ B2'.reverse, ?_⟩
    have hR2 : R = B2'.reverse ++ '.' :: A2.reverse := by
      have h6 : R = (A2 ++ B2).reverse := by
        rw [hRsplit, List.reverse_reverse]
      rw [h6, hBv, List.reverse_append, List.reverse_cons, List.append_assoc,
        List.singleton_append]
    rw [← hrest, hR2, List.append_assoc]

lemma splitext_slashfree (t : List Char) (h : ∀ c ∈ t, c ≠ '/') :
    splitext (String.mk t) = (String.mk (splitextName t).1, String.mk (splitextName t).2) := by
  unfold splitext
  dsimp only
  have htw : t.reverse.takeWhile (fun c => c ≠ '/') = t.reverse := by
    refine takeWhile_eq_self_of_all _ _ ?_
    intro a ha
    rw [List.mem_reverse] at ha
    exact decide_eq_true (h a ha)
  rw [htw, List.reverse_reverse, Nat.sub_self, List.take_zero, List.nil_append]

lemma startsB_slash_false {t : List Char} (h : ∀ c ∈ t, c ≠ '/') :
    startsB (String.mk t) "/" = false := by
  cases t with
  | nil => rfl
  | cons c rest =>
    have hc : c ≠ '/' := h c (List.mem_cons_self c rest)
    unfold startsB
    show List.isPrefixOf ['/'] (c :: rest) = false
    rw [List.isPrefixOf_cons₂]
    simp [Ne.symm hc]

lemma endsB_reverse (L : List Char) :
    endsB (String.mk L.reverse) "/" = List.isPrefixOf ['/'] L := by
  unfold endsB
  show List.isSuffixOf ['/'] L.reverse = _
  unfold List.isSuffixOf
  rw [List.reverse_reverse]
  rfl

/-- Claim C8: for every string filepath with a directory component,
joining the triple produced by `extract_file_components` — the directory,
then the base-name concatenated with the extension — under the host
path-joining rules yields a path equivalent to the input (equal up to
collapsing of repeated separators); and on every non-string input the
decomposition raises a type error. -/
theorem extract_components_round_trip :
    (∀ P : String, (extract_file_components P).1 ≠ "" →
      pathEquiv (joinPath (extract_file_components P).1
        ((extract_file_components P).2.1 ++ (extract_file_components P).2.2)) P) ∧
    (∀ v : PyVal, (∀ s, v ≠ .pyStr s) → extract_file_componentsPy v = .error .typeError) := by
  constructor
  case right =>
    intro v hv
    cases v with
    | pyStr s => exact absurd rfl (hv s)
    | pyNone => rfl
    | pyList l => rfl
    | pyTuple l => rfl
    | pyInt n => rfl
  case left =>
  intro P hdir
  unfold pathEquiv
  unfold extract_file_components osSplit at hdir ⊢
  dsimp only at hdir ⊢
  set A := P.data.reverse.takeWhile (fun c => c ≠ '/') with hA
  set B := P.data.reverse.dropWhile (fun c => c ≠ '/') with hB
  have hAB : A ++ B = P.data.reverse := by
    rw [hA, hB]
    exact List.takeWhile_append_dropWhile _ _
  have hsplitl : B.reverse ++ A.reverse = P.data := by
    rw [← List.reverse_append, hAB, List.reverse_reverse]
  have hAno : ∀ c ∈ A.reverse, c ≠ '/' := by
    intro c hc
    rw [List.mem_reverse, hA] at hc
    have h7 := List.mem_takeWhile_imp hc
    exact of_decide_eq_true h7
  have htake : P.data.take (P.data.length - (A.reverse).length) = B.reverse := by
    have hlen : P.data.length = B.reverse.length + A.reverse.length := by
      rw [← hsplitl, List.length_append]
    rw [hlen, Nat.add_sub_cancel, ← hsplitl, List.take_left]
  rw [htake] at hdir ⊢
  have hBhead : ∀ x rest, B = x :: rest → x = '/' := by
    intro x rest hx
    have h5 := dropWhile_head_false _ _ _ _ (hB.symm.trans hx)
    simpa using h5
  rw [splitext_slashfree A.reverse hAno]
  dsimp only
  have hmk : (String.mk (splitextName A.reverse).1) ++ (String.mk (splitextName A.reverse).2) =
      String.mk ((splitextName A.reverse).1 ++ (splitextName A.reverse).2) := rfl
  rw [hmk, splitextName_recomb]
  clear_value A B
  rcases B with _ | ⟨b, B'⟩
  · exact absurd rfl hdir
  · have hb : b = '/' := hBhead b B' rfl
    subst hb
    have hne : (('/' :: B').reverse).isEmpty = false := by
      rw [List.isEmpty_eq_false]
      simp
    rw [hne]
    simp only [Bool.false_or]
    by_cases hall : (('/' :: B').reverse).all (fun c => c = '/') = true
    · rw [hall, if_pos rfl]
      unfold joinPath
      rw [startsB_slash_false hAno]
      simp only [Bool.false_eq_true, if_false]
      rw [endsB_reverse]
      have hpre : List.isPrefixOf ['/'] ('/' :: B') = true := by
        rw [List.isPrefixOf_cons₂]
        simp
      rw [hpre, Bool.or_true, if_pos rfl]
      have hdata : ((String.mk (('/' :: B').reverse)) ++ String.mk A.reverse).data =
          ('/' :: B').reverse ++ A.reverse := rfl
      rw [hdata, hsplitl]
    · rw [Bool.not_eq_true] at hall
      rw [hall, if_neg (by simp)]
      rw [List.reverse_reverse]
      set D := ('/' :: B').takeWhile (fun c => c = '/') with hD
      set C := ('/' :: B').dropWhile (fun c => c = '/') with hC
      have hDC : D ++ C = '/' :: B' := by
        rw [hD, hC]
        exact List.takeWhile_append_dropWhile _ _
      have hDrep : D = List.replicate D.length '/' := by
        refine List.eq_replicate_length.mpr ?_
        intro x hx
        rw [hD] at hx
        have h7 := List.mem_takeWhile_imp hx
        exact of_decide_eq_true h7
      have hDlen : 1 ≤ D.length := by
        rw [hD, List.takeWhile_cons, if_pos (by decide)]
        simp
      have hChead : ∀ x rest2, C = x :: rest2 → x ≠ '/' := by
        intro x rest2 hx
        have h5 := dropWhile_head_false _ _ _ _ (hC.symm.trans hx)
        simpa using h5
      have hCne : C ≠ [] := by
        intro hnil
        rw [hnil, List.append_nil] at hDC
        have hallsl : (('/' :: B').reverse).all (fun c => c = '/') = true := by
          rw [List.all_reverse, List.all_eq_true]
          intro x hx
          rw [← hDC, hD] at hx
          have h7 := List.mem_takeWhile_imp hx
          exact h7
        rw [hallsl] at hall
        exact absurd hall (by simp)
      clear_value C D
      unfold joinPath
      rw [startsB_slash_false hAno]
      simp only [Bool.false_eq_true, if_false]
      rw [endsB_reverse]
      have hCpre : List.isPrefixOf ['/'] C = false := by
        rcases hCv : C with _ | ⟨x, rest2⟩
        · rfl
        · have hx : x ≠ '/' := hChead x rest2 hCv
          rw [List.isPrefixOf_cons₂]
          simp [Ne.symm hx]
      rw [hCpre]
      have hmkne : (decide (String.mk C.reverse = "")) = false := by
        rw [decide_eq_false_iff_not]
        intro hmk2
        apply hCne
        have h6 : C.reverse = [] := congrArg String.data hmk2
        rwa [List.reverse_eq_nil_iff] at h6
      rw [hmkne, if_neg (by simp)]
      have hdata : ((String.mk C.reverse ++ "/") ++ String.mk A.reverse).data =
          C.reverse ++ ('/' :: A.reverse) := by
        show (C.reverse ++ ['/']) ++ A.reverse = _
        rw [List.append_assoc, List.singleton_append]
      rw [hdata, ← hsplitl]
      obtain ⟨k, hk⟩ : ∃ k, D.length = k + 1 := ⟨D.length - 1, by omega⟩
      have hrev : (('/' :: B').reverse) = C.reverse ++ List.replicate (k + 1) '/' := by
        rw [← hDC, List.reverse_append]
        congr 1
        rw [hDrep, hk, List.reverse_replicate]
      rw [hrev, List.append_assoc, ← List.append_assoc C.reverse]
      rw [collapse_runs k C.reverse A.reverse]

/-- Claim C8 witness: the round trip instantiated on a path with a doubled
separator, and the type error on an integer input. -/
theorem extract_components_round_trip_witness :
    pathEquiv (joinPath (extract_file_components "a//b.txt").1
        ((extract_file_components "a//b.txt").2.1 ++
          (extract_file_components "a//b.txt").2.2)) "a//b.txt" ∧
      extract_file_componentsPy (.pyInt 0) = .error .typeError :=
  ⟨extract_components_round_trip.1 "a//b.txt" (by decide),
   extract_components_round_trip.2 (.pyInt 0) (fun s h => by cases h)⟩

end FileManager

